import Mathlib

/-!
# Verification of the searchSECO-parser orchestration core (src/Parser.ts)

Shallow embedding of `src/Parser.ts`: the language classifier
(`getFileNameAndLanguage`), the recursive tree walk (`getAllFiles`), and the
orchestrator (`Parser.ParseFiles`) that routes files to language backends,
fans out `Parse()` over every registered backend, joins via `Promise.all`,
and flattens the results.

The filesystem is modelled as a tree of named entries; a filesystem race
(`statSync` throwing between enumeration and inspection) is modelled by a
`statFails` flag on an entry.  Backend instances (`IParser`) are modelled as
a queue of `(filename, basePath)` pairs plus a parse function returning
`Except String (List HashData)` (a rejected promise is an `Except.error`).
-/

namespace SearchSECO

/-- The union of `XMLSupportedLanguage` and `ANTLRSupportedLanguage`
from `src/Parser.ts`. -/
inductive Language where
  | cpp
  | csharp
  | java
  | python
  | js
deriving DecidableEq, Repr

/-- Line terminators that the `.` of a JavaScript regular expression does
not match (used by `/^.git/`). -/
def isLineTerminator (c : Char) : Bool :=
  c = '\n' || c = '\r' || c = Char.ofNat 0x2028 || c = Char.ofNat 0x2029

/-- Semantics of `/^.git/.test(file)` in `getAllFiles` (src/Parser.ts:32):
the string matches iff it has at least four characters, the first is not a
line terminator, and the second through fourth are the literal letters
`g`, `i`, `t`. -/
def dotGitRegexTest (s : String) : Bool :=
  match s.data with
  | c0 :: c1 :: c2 :: c3 :: _ =>
    !isLineTerminator c0 && (c1 = 'g') && (c2 = 'i') && (c3 = 't')
  | _ => false

/-- `String.prototype.replace` with a plain-string pattern: replace the
leftmost occurrence of `pat` (if any) by `rep`; an empty pattern matches at
the start of the string. -/
def replaceFirstList (pat rep : List Char) : List Char → List Char
  | [] => if pat.isPrefixOf ([] : List Char) then rep else []
  | c :: cs =>
    if pat.isPrefixOf (c :: cs) then rep ++ (c :: cs).drop pat.length
    else c :: replaceFirstList pat rep cs

/-- JavaScript `s.replace(pat, rep)` for string `pat` (first occurrence only). -/
def jsReplaceFirst (s pat rep : String) : String :=
  ⟨replaceFirstList pat.data rep.data s.data⟩

/-- `path.join(a, b)` as used by the walk (names in this model contain no
separators or `..`, so joining is concatenation with `/`). -/
def pathJoin (a b : String) : String := a ++ "/" ++ b

mutual
/-- A filesystem entry: a regular file or a directory with entries.
`statFails` models `fs.statSync` throwing on this entry (the path vanished
or became unreadable between enumeration and inspection). -/
inductive FSTree where
  | file (name : String) (statFails : Bool) : FSTree
  | dir (name : String) (statFails : Bool) (entries : FSList) : FSTree

/-- The listing of a directory, in enumeration order. -/
inductive FSList where
  | nil : FSList
  | cons (e : FSTree) (rest : FSList) : FSList
end

def FSTree.name : FSTree → String
  | .file n _ => n
  | .dir n _ _ => n

def FSTree.statFails : FSTree → Bool
  | .file _ b => b
  | .dir _ b _ => b

def FSList.append : FSList → FSList → FSList
  | .nil, ys => ys
  | .cons x xs, ys => .cons x (FSList.append xs ys)

instance : Append FSList := ⟨FSList.append⟩

/-- The inner loop of `getAllFiles` (src/Parser.ts:30-43): for each entry,
skip it if its name matches `/^.git/`; otherwise `statSync` it — if that
throws, skip the entry; if it is a directory, recurse into it; else push
its joined path onto the accumulator. -/
def recursivelyGetFiles : FSList → String → List String → List String
  | .nil, _, acc => acc
  | .cons e rest, currDir, acc =>
    if dotGitRegexTest e.name then
      recursivelyGetFiles rest currDir acc
    else if e.statFails then
      recursivelyGetFiles rest currDir acc
    else
      match e with
      | .file n _ => recursivelyGetFiles rest currDir (acc ++ [pathJoin currDir n])
      | .dir n _ sub =>
        recursivelyGetFiles rest currDir
          (recursivelyGetFiles sub (pathJoin currDir n) acc)

/-- `getAllFiles(dir)` (src/Parser.ts:29-46): walk the tree rooted at `dir`
(whose entries are `root`), after rewriting the first backslash of `dir`
to a forward slash. -/
def getAllFiles (dir : String) (root : FSList) : List String :=
  recursivelyGetFiles root (jsReplaceFirst dir "\\" "/") []

/-- JS `String.prototype.split('.')`: split at every dot, keeping empty
segments; the result is never empty (`"".split('.')` is `[""]`). -/
def splitOnDot : List Char → List (List Char)
  | [] => [[]]
  | c :: cs =>
    if c = '.' then [] :: splitOnDot cs
    else
      match splitOnDot cs with
      | [] => [[c]]
      | p :: ps => (c :: p) :: ps

/-- JS `String.prototype.toLowerCase`, folded characterwise (ASCII case
folding; it agrees with JS on every extension the classifier compares
against, whose letters are plain ASCII). -/
def jsToLower (cs : List Char) : List Char := cs.map Char.toLower

/-- `filename.split('.').pop()?.toLowerCase()`: the lowercased text after
the last dot (the whole string when there is no dot). -/
def lastSegmentLower (s : String) : Option String :=
  (splitOnDot s.data).getLast?.map (fun cs => (⟨jsToLower cs⟩ : String))

/-- Result of the classifier: the rewritten file name and the resolved
language (`none` models `undefined`, i.e. unsupported). -/
structure ClassifyResult where
  filename : String
  lang : Option Language
deriving DecidableEq, Repr

/-- `getFileNameAndLanguage` (src/Parser.ts:53-63): rewrite the first
occurrence of `basePath` in `filepath` to `.`, then dispatch on the
lowercased text after the last `.` of the rewritten name. -/
def getFileNameAndLanguage (filepath basePath : String) : ClassifyResult :=
  let filename := jsReplaceFirst filepath basePath "."
  match lastSegmentLower filename with
  | some "py" => ⟨filename, some .python⟩
  | some "js" => ⟨filename, some .js⟩
  | some "cpp" => ⟨filename, some .cpp⟩
  | some "cs" => ⟨filename, some .csharp⟩
  | some "java" => ⟨filename, some .java⟩
  | _ => ⟨filename, none⟩

/-- Modelled from the spec: `src/HashData.ts` is not under src/.  Spec §3
(FunctionRecord): file name, function name, 1-based inclusive line span, and
an opaque content-derived fingerprint. -/
structure HashData where
  fileName : String
  functionName : String
  startLine : Nat
  endLine : Nat
  hashValue : String
deriving DecidableEq, Repr

/-- A language backend (`IParser` from src/ParserBase.ts, not under src/):
its queue of `(filename, basePath)` pairs and its parse behaviour, a
function of the queue whose rejection is modelled by `Except.error`. -/
structure Backend where
  queue : List (String × String)
  parseFn : List (String × String) → Except String (List HashData)

/-- `AddFile(filename, basePath)`: enqueue a file for the next `Parse()`. -/
def Backend.AddFile (b : Backend) (filename basePath : String) : Backend :=
  { b with queue := b.queue ++ [(filename, basePath)] }

/-- Modelled from the spec: a backend's `Parse()` "must clear its queue as
part of completing the cycle" (spec §4.3); the backend implementations are
not under src/.  `Parse()` settles with `parseFn` applied to the current
queue and leaves the queue empty. -/
def Backend.Parse (b : Backend) : Except String (List HashData) × Backend :=
  (b.parseFn b.queue, { b with queue := [] })

/-- `Map.get` on the backend registry: first entry with the given key. -/
def lookupBackend : List (Language × Backend) → Language → Option Backend
  | [], _ => none
  | (l', b) :: rest, l => if l' = l then some b else lookupBackend rest l

/-- Mutate the backend stored under a key (JS `Map` values are object
references, so `parser.AddFile(...)` updates the registry's entry). -/
def updateBackend : List (Language × Backend) → Language → (Backend → Backend) →
    List (Language × Backend)
  | [], _, _ => []
  | (l', b) :: rest, l, f =>
    if l' = l then (l', f b) :: rest else (l', b) :: updateBackend rest l f

/-- The body of `files.forEach` in `ParseFiles` (src/Parser.ts:94-110):
classify the file; if the language is `undefined`, return before pushing
anything; otherwise push the rewritten name onto `filenames`, and if a
backend is registered for the language, `AddFile` the file to it (if not,
log a diagnostic and continue). -/
def routeOne (basePath : String) (st : List String × List (Language × Backend))
    (file : String) : List String × List (Language × Backend) :=
  let r := getFileNameAndLanguage file basePath
  match r.lang with
  | none => st
  | some lang =>
    let filenames := st.1 ++ [r.filename]
    match lookupBackend st.2 lang with
    | none => (filenames, st.2)
    | some _ =>
      (filenames, updateBackend st.2 lang (fun b => b.AddFile r.filename basePath))

/-- The routing phase of `ParseFiles`: fold `routeOne` over the walked
files, starting from an empty `filenames` array. -/
def routeFiles (reg : List (Language × Backend)) (files : List String)
    (basePath : String) : List String × List (Language × Backend) :=
  files.foldl (routeOne basePath) ([], reg)

/-- `Promise.all` over already-issued calls: resolves with the list of
results when every call resolves, rejects as soon as any call rejects. -/
def promiseAll {α : Type} : List (Except String α) → Except String (List α)
  | [] => .ok []
  | .error e :: _ => .error e
  | .ok a :: rest => (promiseAll rest).map (a :: ·)

/-- The value `ParseFiles` resolves with: `{filenames, result}`. -/
structure ParseOutput where
  filenames : List String
  result : List HashData
deriving DecidableEq, Repr

instance {ε α : Type} [DecidableEq ε] [DecidableEq α] :
    DecidableEq (Except ε α) := fun a b =>
  match a, b with
  | .ok x, .ok y => decidable_of_iff (x = y) (by simp)
  | .error e, .error f => decidable_of_iff (e = f) (by simp)
  | .ok _, .error _ => isFalse (by simp)
  | .error _, .ok _ => isFalse (by simp)

/-- `Parser.ParseFiles(basePath)` (src/Parser.ts:87-117): walk the tree at
`basePath`, route every file, then issue `Parse()` on every backend of the
registry (`Array.from(this.parsers.values()).map(p => p.Parse())`), join
with `Promise.all`, and flatten the per-backend results.  The first
component is the settled promise; the second is the registry afterwards
(each backend's queue cleared by its completed `Parse()` cycle). -/
def ParseFiles (reg : List (Language × Backend)) (root : FSList)
    (basePath : String) : Except String ParseOutput × List (Language × Backend) :=
  let files := getAllFiles basePath root
  let routed := routeFiles reg files basePath
  let parserPromises := routed.2.map (fun lb => lb.2.Parse.1)
  let reg' := routed.2.map (fun lb => (lb.1, lb.2.Parse.2))
  match promiseAll parserPromises with
  | .error e => (.error e, reg')
  | .ok rs => (.ok ⟨routed.1, rs.flatten⟩, reg')

/-- `MIN_FUNCTION_CHARS` (src/Parser.ts:65). -/
def MIN_FUNCTION_CHARS : Nat := 0

/-- `MIN_METHOD_LINES` (src/Parser.ts:66). -/
def MIN_METHOD_LINES : Nat := 0

/-- Modelled from the spec: a function/method located by a backend before
minimum-size filtering, with its line span and character count (the
language parsers under src/languages and src/srcML are not under src/). -/
structure RawFunction where
  funcName : String
  startLine : Nat
  endLine : Nat
  charCount : Nat
  hashValue : String
deriving DecidableEq, Repr

/-- Number of source lines of a located function (1-based inclusive span). -/
def RawFunction.lineCount (f : RawFunction) : Nat := f.endLine - f.startLine + 1

/-- The FunctionRecord a backend emits for a located function of a file. -/
def toHashData (fileName : String) (f : RawFunction) : HashData :=
  ⟨fileName, f.funcName, f.startLine, f.endLine, f.hashValue⟩

/-- Modelled from the spec: "Functions below a configured minimum size
(line count and/or character count) never produce a record — applied
uniformly by every backend" (spec §3); a function at or above both
thresholds is kept. -/
def minSizeFilter (minLines minChars : Nat) (fs : List RawFunction) :
    List RawFunction :=
  fs.filter (fun f => minLines ≤ f.lineCount && minChars ≤ f.charCount)

/-- Modelled from the spec: the `Parse()` of a concrete backend (spec §4.3)
— process every queued file with the backend's language-specific extraction
`extract`, apply the minimum-size filter, and emit one record per surviving
function. -/
def specBackendParse (minLines minChars : Nat)
    (extract : String → String → List RawFunction)
    (queue : List (String × String)) : List HashData :=
  (queue.map (fun p =>
    (minSizeFilter minLines minChars (extract p.1 p.2)).map (toHashData p.1))).flatten

/-- A fresh backend running `specBackendParse` with the given thresholds. -/
def mkSpecBackend (minLines minChars : Nat)
    (extract : String → String → List RawFunction) : Backend :=
  ⟨[], fun q => .ok (specBackendParse minLines minChars extract q)⟩

/-- `Parser.parsers` (src/Parser.ts:73-79): the registry maps Javascript,
Python, C++, C# and Java each to one backend, every backend constructed
with the same two size thresholds `MIN_METHOD_LINES`/`MIN_FUNCTION_CHARS`;
the language-specific extraction functions are parameters since the backend
sources are not under src/. -/
def Parser.parsers (exJs exPy exCpp exCs exJava :
    String → String → List RawFunction) : List (Language × Backend) :=
  [(.js, mkSpecBackend MIN_METHOD_LINES MIN_FUNCTION_CHARS exJs),
   (.python, mkSpecBackend MIN_METHOD_LINES MIN_FUNCTION_CHARS exPy),
   (.cpp, mkSpecBackend MIN_METHOD_LINES MIN_FUNCTION_CHARS exCpp),
   (.csharp, mkSpecBackend MIN_METHOD_LINES MIN_FUNCTION_CHARS exCs),
   (.java, mkSpecBackend MIN_METHOD_LINES MIN_FUNCTION_CHARS exJava)]

/-- The spec's description of what the walk must return (§4.1): the regular
files reachable recursively from the root, in enumeration order, skipping
entries whose names match the version-control pattern and entries whose
inspection fails; directories are recursed into, files are yielded. -/
def reachableFiles : String → FSList → List String
  | _, .nil => []
  | currDir, .cons e rest =>
    (if dotGitRegexTest e.name || e.statFails then []
     else
       match e with
       | .file n _ => [pathJoin currDir n]
       | .dir n _ sub => reachableFiles (pathJoin currDir n) sub) ++
    reachableFiles currDir rest

theorem FSList.nil_append (ys : FSList) : FSList.nil ++ ys = ys := rfl

theorem FSList.cons_append (x : FSTree) (xs ys : FSList) :
    FSList.cons x xs ++ ys = .cons x (xs ++ ys) := rfl

theorem reachableFiles_nil (c : String) : reachableFiles c .nil = [] := rfl

theorem reachableFiles_cons (c : String) (e : FSTree) (rest : FSList) :
    reachableFiles c (.cons e rest) =
      (if dotGitRegexTest e.name || e.statFails then []
       else
         match e with
         | .file n _ => [pathJoin c n]
         | .dir n _ sub => reachableFiles (pathJoin c n) sub) ++
      reachableFiles c rest := by
  cases e <;> rfl

/-- The accumulator-passing loop of `getAllFiles` computes `reachableFiles`
appended to the accumulator. -/
theorem recursivelyGetFiles_eq (es : FSList) (currDir : String)
    (acc : List String) :
    recursivelyGetFiles es currDir acc = acc ++ reachableFiles currDir es := by
  induction es, currDir, acc using recursivelyGetFiles.induct with
  | case1 c acc => simp [recursivelyGetFiles, reachableFiles_nil]
  | case2 e rest c acc h ih =>
    rw [recursivelyGetFiles.eq_def, reachableFiles_cons]
    simp [h, ih]
  | case3 e rest c acc h1 h2 ih =>
    rw [recursivelyGetFiles.eq_def, reachableFiles_cons]
    simp [h1, h2, ih]
  | case4 rest c acc n sf h1 h2 ih =>
    simp only [FSTree.name, FSTree.statFails] at h1 h2
    rw [recursivelyGetFiles.eq_def, reachableFiles_cons]
    simp [FSTree.name, FSTree.statFails, h1, h2, ih]
  | case5 rest c acc n sf sub h1 h2 ih1 ih2 =>
    simp only [FSTree.name, FSTree.statFails] at h1 h2
    rw [recursivelyGetFiles.eq_def, reachableFiles_cons]
    simp [FSTree.name, FSTree.statFails, h1, h2]
    rw [ih2, ih1, List.append_assoc]

theorem getAllFiles_eq (dir : String) (root : FSList) :
    getAllFiles dir root = reachableFiles (jsReplaceFirst dir "\\" "/") root := by
  simp [getAllFiles, recursivelyGetFiles_eq]

theorem reachableFiles_append (c : String) (xs ys : FSList) :
    reachableFiles c (xs ++ ys) = reachableFiles c xs ++ reachableFiles c ys := by
  induction xs, ys using FSList.append.induct with
  | case1 ys => rw [FSList.nil_append, reachableFiles_nil, List.nil_append]
  | case2 x xs ys ih =>
    show reachableFiles c (FSList.cons x xs ++ ys) = _
    rw [FSList.cons_append, reachableFiles_cons, reachableFiles_cons, ih,
      List.append_assoc]

/-- An entry whose `statSync` fails is skipped by the loop. -/
theorem reachableFiles_statFails (c : String) (e : FSTree) (rest : FSList)
    (h : e.statFails = true) :
    reachableFiles c (.cons e rest) = reachableFiles c rest := by
  rw [reachableFiles_cons]
  simp [h]

/-- An entry whose name matches `/^.git/` is skipped by the loop. -/
theorem reachableFiles_dotGit (c : String) (e : FSTree) (rest : FSList)
    (h : dotGitRegexTest e.name = true) :
    reachableFiles c (.cons e rest) = reachableFiles c rest := by
  rw [reachableFiles_cons]
  simp [h]

theorem replaceFirstList_of_isPrefixOf (pat rep s : List Char)
    (h : pat.isPrefixOf s = true) :
    replaceFirstList pat rep s = rep ++ s.drop pat.length := by
  cases s with
  | nil => simp_all [replaceFirstList, List.isPrefixOf]
  | cons c cs => simp [replaceFirstList, h]

/-- When `basePath` is a prefix of the path, `path.replace(basePath, '.')`
replaces exactly that leading occurrence. -/
theorem jsReplaceFirst_leading (bp rest : String) :
    jsReplaceFirst (bp ++ rest) bp "." = "." ++ rest := by
  apply String.ext
  show replaceFirstList bp.data ".".data (bp ++ rest).data = ("." ++ rest).data
  rw [String.data_append, String.data_append]
  rw [replaceFirstList_of_isPrefixOf]
  · rw [List.drop_left]
  · rw [ List.isPrefixOf_iff_prefix]
    exact List.prefix_append _ _

/-- The classifier table as the spec states it: the extension is compared
case-insensitively against the recognized set (`py`, `js`, `cpp`, `cs`,
`java`); anything else is unsupported. -/
def claimedLangOfExt : Option String → Option Language
  | none => none
  | some ext =>
    if jsToLower ext.data = "py".data then some .python
    else if jsToLower ext.data = "js".data then some .js
    else if jsToLower ext.data = "cpp".data then some .cpp
    else if jsToLower ext.data = "cs".data then some .csharp
    else if jsToLower ext.data = "java".data then some .java
    else none

/-- The file's extension: the text after the last dot, not case-folded. -/
def rawExt (s : String) : Option String :=
  (splitOnDot s.data).getLast?.map (fun cs => (⟨cs⟩ : String))

/-- The classifier's rewritten name is `replace(basePath, '.')`. -/
theorem getFileNameAndLanguage_filename (fp bp : String) :
    (getFileNameAndLanguage fp bp).filename = jsReplaceFirst fp bp "." := by
  simp only [getFileNameAndLanguage]
  split <;> rfl

/-- The classifier's resolved language is the spec's case-insensitive table
applied to the rewritten name's raw extension. -/
theorem lang_eq_claimed (fp bp : String) :
    (getFileNameAndLanguage fp bp).lang =
      claimedLangOfExt (rawExt (jsReplaceFirst fp bp ".")) := by
  simp only [getFileNameAndLanguage, lastSegmentLower, rawExt, claimedLangOfExt]
  cases hg : (splitOnDot (jsReplaceFirst fp bp ".").data).getLast? with
  | none => simp [hg]
  | some cs =>
    simp only [hg, Option.map_some']
    split <;> simp_all [String.ext_iff]

/-- A supported file's step in `files.forEach`: `filenames.push` happens for
every classified file; `getFileNameAndLanguage` never fails. -/
theorem routeOne_unsupported (bp : String)
    (st : List String × List (Language × Backend)) (p : String)
    (h : (getFileNameAndLanguage p bp).lang = none) :
    routeOne bp st p = st := by
  simp [routeOne, h]

theorem routeOne_noBackend (bp : String)
    (st : List String × List (Language × Backend)) (p : String) (l : Language)
    (h1 : (getFileNameAndLanguage p bp).lang = some l)
    (h2 : lookupBackend st.2 l = none) :
    routeOne bp st p = (st.1 ++ [(getFileNameAndLanguage p bp).filename], st.2) := by
  simp [routeOne, h1, h2]

theorem routeOne_backend (bp : String)
    (st : List String × List (Language × Backend)) (p : String) (l : Language)
    (b : Backend)
    (h1 : (getFileNameAndLanguage p bp).lang = some l)
    (h2 : lookupBackend st.2 l = some b) :
    routeOne bp st p =
      (st.1 ++ [(getFileNameAndLanguage p bp).filename],
       updateBackend st.2 l
         (fun b => b.AddFile (getFileNameAndLanguage p bp).filename bp)) := by
  simp [routeOne, h1, h2]

/-- The names the routing phase accumulates: the rewritten name of every
walked file whose language was recognized, in walk order. -/
def supportedNames (bp : String) (files : List String) : List String :=
  files.filterMap (fun f =>
    let r := getFileNameAndLanguage f bp
    if r.lang.isSome then some r.filename else none)

theorem foldl_routeOne_fst (bp : String) (files : List String)
    (fns : List String) (reg : List (Language × Backend)) :
    (files.foldl (routeOne bp) (fns, reg)).1 = fns ++ supportedNames bp files := by
  induction files generalizing fns reg with
  | nil => simp [supportedNames]
  | cons f fs ih =>
    rw [List.foldl_cons]
    cases hl : (getFileNameAndLanguage f bp).lang with
    | none =>
      rw [routeOne_unsupported _ _ _ hl, ih]
      simp [supportedNames, hl]
    | some l =>
      cases hb : lookupBackend reg l with
      | none =>
        rw [routeOne_noBackend _ _ _ _ hl hb, ih]
        simp [supportedNames, hl]
      | some b =>
        rw [routeOne_backend _ _ _ _ _ hl hb, ih]
        simp [supportedNames, hl]

theorem routeFiles_fst (bp : String) (files : List String)
    (reg : List (Language × Backend)) :
    (routeFiles reg files bp).1 = supportedNames bp files := by
  simp [routeFiles, foldl_routeOne_fst]

/-- Routing only ever appends to queues: a registry entry keeps its key and
its parse behaviour. -/
def samePF (a b : Language × Backend) : Prop :=
  a.1 = b.1 ∧ a.2.parseFn = b.2.parseFn

theorem samePF_refl (a : Language × Backend) : samePF a a := ⟨rfl, rfl⟩

theorem forall2_samePF_refl (reg : List (Language × Backend)) :
    List.Forall₂ samePF reg reg :=
  List.forall₂_same.mpr (fun x _ => samePF_refl x)

theorem forall2_samePF_trans {a b c : List (Language × Backend)}
    (h1 : List.Forall₂ samePF a b) (h2 : List.Forall₂ samePF b c) :
    List.Forall₂ samePF a c := by
  induction h1 generalizing c with
  | nil => cases h2; exact .nil
  | cons hr _ ih =>
    cases h2 with
    | cons hr2 ht2 => exact .cons ⟨hr.1.trans hr2.1, hr.2.trans hr2.2⟩ (ih ht2)

theorem updateBackend_samePF (reg : List (Language × Backend)) (l : Language)
    (f : Backend → Backend) (hf : ∀ b, (f b).parseFn = b.parseFn) :
    List.Forall₂ samePF reg (updateBackend reg l f) := by
  induction reg with
  | nil => exact .nil
  | cons x rest ih =>
    rw [updateBackend]
    split
    · exact .cons ⟨rfl, (hf x.2).symm⟩ (forall2_samePF_refl rest)
    · exact .cons (samePF_refl x) ih

theorem routeOne_samePF (bp : String)
    (st : List String × List (Language × Backend)) (p : String) :
    List.Forall₂ samePF st.2 (routeOne bp st p).2 := by
  cases hl : (getFileNameAndLanguage p bp).lang with
  | none => rw [routeOne_unsupported _ _ _ hl]; exact forall2_samePF_refl _
  | some l =>
    cases hb : lookupBackend st.2 l with
    | none => rw [routeOne_noBackend _ _ _ _ hl hb]; exact forall2_samePF_refl _
    | some b =>
      rw [routeOne_backend _ _ _ _ _ hl hb]
      exact updateBackend_samePF _ _ _ (fun _ => rfl)

theorem routeFiles_samePF (bp : String) (files : List String)
    (reg : List (Language × Backend)) :
    List.Forall₂ samePF reg (routeFiles reg files bp).2 := by
  suffices h : ∀ fns, List.Forall₂ samePF reg (files.foldl (routeOne bp) (fns, reg)).2 from
    h []
  induction files generalizing reg with
  | nil => intro fns; exact forall2_samePF_refl _
  | cons f fs ih =>
    intro fns
    rw [List.foldl_cons]
    have h1 := routeOne_samePF bp (fns, reg) f
    have h2 : routeOne bp (fns, reg) f =
        ((routeOne bp (fns, reg) f).1, (routeOne bp (fns, reg) f).2) := rfl
    rw [h2]
    exact forall2_samePF_trans h1 (ih _ _)

theorem forall2_samePF_keys {a b : List (Language × Backend)}
    (h : List.Forall₂ samePF a b) : a.map Prod.fst = b.map Prod.fst := by
  induction h with
  | nil => rfl
  | cons hr _ ih => simp [hr.1, ih]

theorem forall2_samePF_mem {a b : List (Language × Backend)}
    (h : List.Forall₂ samePF a b) {x : Language × Backend} (hx : x ∈ a) :
    ∃ y ∈ b, samePF x y := by
  induction h with
  | nil => cases hx
  | cons hr ht ih =>
    rcases List.mem_cons.mp hx with h1 | h2
    · exact ⟨_, List.mem_cons_self _ _, h1 ▸ hr⟩
    · rcases ih h2 with ⟨y, hy, hxy⟩
      exact ⟨y, List.mem_cons_of_mem _ hy, hxy⟩

theorem lookupBackend_eq_none_iff (reg : List (Language × Backend))
    (l : Language) :
    lookupBackend reg l = none ↔ l ∉ reg.map Prod.fst := by
  induction reg with
  | nil => simp [lookupBackend]
  | cons x rest ih =>
    rw [lookupBackend]
    by_cases hx : x.1 = l
    · simp [hx]
    · simp [hx, ih, Ne.symm hx]

theorem promiseAll_error_of_mem {α : Type} (l : List (Except String α))
    (e : String) (he : Except.error e ∈ l) :
    ∃ e', promiseAll l = .error e' := by
  induction l with
  | nil => cases he
  | cons x rest ih =>
    rcases List.mem_cons.mp he with h1 | h2
    · subst h1; exact ⟨e, rfl⟩
    · cases x with
      | error e0 => exact ⟨e0, rfl⟩
      | ok a =>
        rcases ih h2 with ⟨e', he'⟩
        refine ⟨e', ?_⟩
        rw [promiseAll, he']
        rfl

theorem promiseAll_map_ok {α β : Type} (l : List α) (f : α → β) :
    promiseAll (l.map (fun x => Except.ok (f x) : α → Except String β)) =
      .ok (l.map f) := by
  induction l with
  | nil => rfl
  | cons x rest ih => rw [List.map_cons, promiseAll, ih]; rfl


theorem ParseFiles_snd (reg : List (Language × Backend)) (root : FSList) (bp : String) :
    (ParseFiles reg root bp).2 =
      (routeFiles reg (getAllFiles bp root) bp).2.map
        (fun lb => (lb.1, Backend.mk [] lb.2.parseFn)) := by
  unfold ParseFiles
  simp only [Backend.Parse]
  rcases h : promiseAll ((routeFiles reg (getAllFiles bp root) bp).2.map
      (fun lb => lb.2.parseFn lb.2.queue)) with e | rs <;>
    simp [h]

theorem ParseFiles_fst_err (reg : List (Language × Backend)) (root : FSList) (bp : String)
    (e : String)
    (h : promiseAll ((routeFiles reg (getAllFiles bp root) bp).2.map
        (fun lb => lb.2.parseFn lb.2.queue)) = .error e) :
    (ParseFiles reg root bp).1 = .error e := by
  unfold ParseFiles
  simp only [Backend.Parse]
  rw [h]

theorem ParseFiles_fst_ok (reg : List (Language × Backend)) (root : FSList) (bp : String)
    (rs : List (List HashData))
    (h : promiseAll ((routeFiles reg (getAllFiles bp root) bp).2.map
        (fun lb => lb.2.parseFn lb.2.queue)) = .ok rs) :
    (ParseFiles reg root bp).1 =
      .ok ⟨(routeFiles reg (getAllFiles bp root) bp).1, rs.flatten⟩ := by
  unfold ParseFiles
  simp only [Backend.Parse]
  rw [h]



/-- C7: if inspecting an entry fails (the path vanished or became
unreadable between enumeration and inspection), that single entry is
silently excluded and the walk still returns the remaining files — at any
directory level, and hence also for `getAllFiles` as a whole. -/
theorem claim7_race_entry_skipped (c bp : String) (acc : List String)
    (es1 es2 : FSList) (e : FSTree) (h : e.statFails = true) :
    recursivelyGetFiles (es1 ++ .cons e es2) c acc =
      recursivelyGetFiles (es1 ++ es2) c acc ∧
    getAllFiles bp (es1 ++ .cons e es2) = getAllFiles bp (es1 ++ es2) := by
  constructor
  · rw [recursivelyGetFiles_eq, recursivelyGetFiles_eq, reachableFiles_append,
      reachableFiles_append, reachableFiles_statFails _ _ _ h]
  · rw [getAllFiles_eq, getAllFiles_eq, reachableFiles_append, reachableFiles_append,
      reachableFiles_statFails _ _ _ h]

theorem claim7_witness :
    (FSTree.file "gone.js" true).statFails = true ∧
    recursivelyGetFiles
        (FSList.nil ++ .cons (.file "gone.js" true) (.cons (.file "a.js" false) .nil))
        "r" [] =
      recursivelyGetFiles (FSList.nil ++ .cons (.file "a.js" false) .nil) "r" [] :=
  ⟨rfl, (claim7_race_entry_skipped "r" "r" [] .nil (.cons (.file "a.js" false) .nil)
    (.file "gone.js" true) rfl).1⟩

/-- C10: the walk's exclusion test `/^.git/` matches any name whose second
through fourth characters are the literal letters `git` after an arbitrary
first character — for example `agit.js` or `xgit`, not only names beginning
with `.git` — and a matching entry is neither recursed into nor yielded. -/
theorem claim10_regex_any_first_char :
    (∀ s : String, dotGitRegexTest s = true ↔
      ∃ c0 c1 c2 c3 rest, s.data = c0 :: c1 :: c2 :: c3 :: rest ∧
        isLineTerminator c0 = false ∧ c1 = 'g' ∧ c2 = 'i' ∧ c3 = 't') ∧
    dotGitRegexTest "agit.js" = true ∧ dotGitRegexTest "xgit" = true ∧
    dotGitRegexTest ".git" = true ∧
    (∀ (c : String) (acc : List String) (es1 es2 : FSList) (e : FSTree),
      dotGitRegexTest e.name = true →
      recursivelyGetFiles (es1 ++ .cons e es2) c acc =
        recursivelyGetFiles (es1 ++ es2) c acc) := by
  refine ⟨?_, by decide, by decide, by decide, ?_⟩
  · intro s
    constructor
    · intro h
      unfold dotGitRegexTest at h
      split at h
      · next c0 c1 c2 c3 rest heq =>
        simp only [Bool.and_eq_true, Bool.not_eq_true', decide_eq_true_eq] at h
        exact ⟨c0, c1, c2, c3, rest, heq, h.1.1.1, h.1.1.2, h.1.2, h.2⟩
      · exact absurd h (by simp)
    · rintro ⟨c0, c1, c2, c3, rest, hdata, h0, h1, h2, h3⟩
      unfold dotGitRegexTest
      rw [hdata]
      simp [h0, h1, h2, h3]
  · intro c acc es1 es2 e h
    rw [recursivelyGetFiles_eq, recursivelyGetFiles_eq, reachableFiles_append,
      reachableFiles_append, reachableFiles_dotGit _ _ _ h]

theorem claim10_witness :
    dotGitRegexTest (FSTree.dir "agit" false (.cons (.file "x.js" false) .nil)).name
      = true ∧
    recursivelyGetFiles
        (FSList.nil ++ .cons (.dir "agit" false (.cons (.file "x.js" false) .nil)) .nil)
        "r" [] =
      recursivelyGetFiles (FSList.nil ++ FSList.nil) "r" [] :=
  ⟨by decide, claim10_regex_any_first_char.2.2.2.2 "r" [] .nil .nil
    (.dir "agit" false (.cons (.file "x.js" false) .nil)) (by decide)⟩

/-- C6: the classifier is a pure total function (it is a Lean function, so
purity and totality are intrinsic to the embedding): when the base path
leads the file path, the returned `relativeName` is the path rewritten with
a current-directory prefix, and the language tag is the spec's
case-insensitive extension table (`py` to Python, `js` to Javascript, `cpp`
to C++, `cs` to C#, `java` to Java, anything else unsupported) applied to
the rewritten name's extension. -/
theorem claim6_classifier_total_mapping (fp bp : String) :
    (∀ rest : String, fp = bp ++ rest →
      (getFileNameAndLanguage fp bp).filename = "." ++ rest) ∧
    (getFileNameAndLanguage fp bp).lang =
      claimedLangOfExt (rawExt ((getFileNameAndLanguage fp bp).filename)) := by
  constructor
  · intro rest h
    rw [getFileNameAndLanguage_filename, h, jsReplaceFirst_leading]
  · rw [getFileNameAndLanguage_filename, lang_eq_claimed]

theorem claim6_witness :
    ("base/A.PY" : String) = "base" ++ "/A.PY" ∧
    (getFileNameAndLanguage "base/A.PY" "base").filename = "." ++ "/A.PY" ∧
    (getFileNameAndLanguage "base/A.PY" "base").lang = some Language.python ∧
    claimedLangOfExt (rawExt "./unknown.xyz") = none :=
  ⟨rfl, (claim6_classifier_total_mapping "base/A.PY" "base").1 "/A.PY" rfl,
   by decide, by decide⟩



/-- A concrete backend emitting one record per queued file, used to
evaluate the orchestrator on closed examples. -/
def oneRecordBackend : Backend :=
  ⟨[], fun q => .ok (q.map fun p => ⟨p.1, "f", 1, 3, "h"⟩)⟩

/-- A concrete registry with Javascript and Python backends. -/
def sampleRegistry : List (Language × Backend) :=
  [(.js, oneRecordBackend), (.python, oneRecordBackend)]

/-- A concrete registry with only a Javascript backend. -/
def jsOnlyRegistry : List (Language × Backend) :=
  [(.js, oneRecordBackend)]

/-- C1 counterexample: for a walked file `c.txt` whose extension is
unsupported, the run's `filenames` output is empty — it does not contain
the file's relativeName `./c.txt`, contrary to the claim (because
`ParseFiles` returns before pushing when the language is `undefined`). -/
theorem claim1_counterexample :
    getFileNameAndLanguage "root/c.txt" "root" = ⟨"./c.txt", none⟩ ∧
    getAllFiles "root" (.cons (.file "c.txt" false) .nil) = ["root/c.txt"] ∧
    (ParseFiles sampleRegistry (.cons (.file "c.txt" false) .nil) "root").1 =
      .ok ⟨[], []⟩ ∧
    "./c.txt" ∉ (ParseOutput.mk [] []).filenames := by
  refine ⟨by decide, by decide, by decide, by decide⟩

/-- C1 amended: a walked file with an unrecognized extension is omitted
from `filenames` entirely and contributes zero records; its processing
stops non-fatally (the routing step leaves the state unchanged, so the run
behaves exactly as if the file were absent). -/
theorem claim1_unsupported_isolation (bp : String) (reg : List (Language × Backend))
    (files1 files2 : List String) (p : String)
    (h : (getFileNameAndLanguage p bp).lang = none) :
    (∀ st, routeOne bp st p = st) ∧
    routeFiles reg (files1 ++ p :: files2) bp =
      routeFiles reg (files1 ++ files2) bp := by
  refine ⟨fun st => routeOne_unsupported bp st p h, ?_⟩
  simp [routeFiles, List.foldl_append, List.foldl_cons,
    routeOne_unsupported _ _ _ h]

theorem claim1_witness :
    (getFileNameAndLanguage "root/readme.md" "root").lang = none ∧
    routeFiles sampleRegistry (["root/a.js"] ++ "root/readme.md" :: []) "root" =
      routeFiles sampleRegistry (["root/a.js"] ++ []) "root" :=
  ⟨by decide,
   (claim1_unsupported_isolation "root" sampleRegistry ["root/a.js"] []
     "root/readme.md" (by decide)).2⟩

/-- C2 counterexample: a tree containing the single regular file `d.md`
walks to exactly that file, yet the run's `filenames` output is `[]`, not
`["./d.md"]` — `filenames` does not equal the set of all regular
non-version-control files. -/
theorem claim2_counterexample :
    getAllFiles "base" (.cons (.file "d.md" false) .nil) = ["base/d.md"] ∧
    (getFileNameAndLanguage "base/d.md" "base").filename = "./d.md" ∧
    (ParseFiles sampleRegistry (.cons (.file "d.md" false) .nil) "base").1 =
      .ok ⟨[], []⟩ ∧
    ([] : List String) ≠ ["./d.md"] := by
  refine ⟨by decide, by decide, by decide, by decide⟩

/-- C2 amended: the `filenames` output of a successful run equals exactly
the recognized-extension files among the regular files reachable
recursively from the root (excluding entries whose names match `/^.git/`
and entries whose inspection fails), each rewritten relative to the base
path. -/
theorem claim2_filenames_exactly_supported (reg : List (Language × Backend))
    (root : FSList) (bp : String) (out : ParseOutput)
    (h : (ParseFiles reg root bp).1 = .ok out) :
    out.filenames = supportedNames bp (getAllFiles bp root) ∧
    getAllFiles bp root = reachableFiles (jsReplaceFirst bp "\\" "/") root := by
  refine ⟨?_, getAllFiles_eq bp root⟩
  rcases hp : promiseAll ((routeFiles reg (getAllFiles bp root) bp).2.map
      (fun lb => lb.2.parseFn lb.2.queue)) with e | rs
  · rw [ParseFiles_fst_err _ _ _ _ hp] at h; cases h
  · rw [ParseFiles_fst_ok _ _ _ _ hp] at h
    injection h with h2
    rw [← h2]
    exact routeFiles_fst bp (getAllFiles bp root) reg

theorem claim2_witness :
    (ParseFiles sampleRegistry (.cons (.file "a.js" false) .nil) "root").1 =
      .ok ⟨["./a.js"], [⟨"./a.js", "f", 1, 3, "h"⟩]⟩ ∧
    (⟨["./a.js"], [⟨"./a.js", "f", 1, 3, "h"⟩]⟩ : ParseOutput).filenames =
      supportedNames "root" (getAllFiles "root" (.cons (.file "a.js" false) .nil)) :=
  ⟨by decide,
   (claim2_filenames_exactly_supported sampleRegistry
     (.cons (.file "a.js" false) .nil) "root" _ (by decide)).1⟩

/-- C5: a file whose language tag is recognized but has no backend
registered keeps its relativeName in `filenames`, leaves every backend
queue untouched (so it contributes no records), and the run continues
non-fatally. -/
theorem claim5_missing_backend_nonfatal (bp : String)
    (reg : List (Language × Backend)) (fns : List String)
    (files : List String) (p : String) (l : Language)
    (h1 : (getFileNameAndLanguage p bp).lang = some l)
    (h2 : lookupBackend reg l = none) :
    routeOne bp (fns, reg) p =
      (fns ++ [(getFileNameAndLanguage p bp).filename], reg) ∧
    routeFiles reg (files ++ [p]) bp =
      ((routeFiles reg files bp).1 ++ [(getFileNameAndLanguage p bp).filename],
       (routeFiles reg files bp).2) := by
  refine ⟨routeOne_noBackend bp (fns, reg) p l h1 h2, ?_⟩
  have hkeys := forall2_samePF_keys (routeFiles_samePF bp files reg)
  have h2' : lookupBackend (routeFiles reg files bp).2 l = none := by
    rw [lookupBackend_eq_none_iff] at h2 ⊢
    rw [← hkeys]
    exact h2
  show (files ++ [p]).foldl (routeOne bp) ([], reg) = _
  rw [List.foldl_append, List.foldl_cons, List.foldl_nil]
  exact routeOne_noBackend bp ((files.foldl (routeOne bp) ([], reg))) p l h1 h2'

theorem claim5_witness :
    (getFileNameAndLanguage "root/b.py" "root").lang = some Language.python ∧
    lookupBackend jsOnlyRegistry Language.python = none ∧
    routeOne "root" ([], jsOnlyRegistry) "root/b.py" = (["./b.py"], jsOnlyRegistry) :=
  ⟨by decide, rfl,
   (claim5_missing_backend_nonfatal "root" jsOnlyRegistry [] [] "root/b.py"
     Language.python (by decide) rfl).1⟩



/-- C3: if any backend's `Parse()` rejects, `ParseFiles` propagates the
failure: the settled result is an error and no `{filenames, result}` value
is produced. -/
theorem claim3_backend_failure_aborts_run (reg : List (Language × Backend))
    (root : FSList) (bp : String) (l : Language) (b : Backend) (e : String)
    (hmem : (l, b) ∈ reg) (hfail : ∀ q, b.parseFn q = .error e) :
    (∃ e', (ParseFiles reg root bp).1 = .error e') ∧
    (∀ out, (ParseFiles reg root bp).1 ≠ .ok out) := by
  have hsp := routeFiles_samePF bp (getAllFiles bp root) reg
  obtain ⟨y, hy, hxy⟩ := forall2_samePF_mem hsp hmem
  have hcall : y.2.parseFn y.2.queue = .error e := by
    rw [← hxy.2]
    exact hfail _
  have hmm : Except.error e ∈ (routeFiles reg (getAllFiles bp root) bp).2.map
      (fun lb => lb.2.parseFn lb.2.queue) :=
    List.mem_map.mpr ⟨y, hy, hcall⟩
  obtain ⟨e', he'⟩ := promiseAll_error_of_mem _ e hmm
  have hfst := ParseFiles_fst_err reg root bp e' he'
  exact ⟨⟨e', hfst⟩, fun out hok => by rw [hfst] at hok; cases hok⟩

/-- A backend whose `Parse()` always rejects. -/
def failingBackend : Backend := ⟨[], fun _ => .error "srcML unavailable"⟩

/-- A registry containing a failing backend next to a working one. -/
def failRegistry : List (Language × Backend) :=
  [(.js, failingBackend), (.python, oneRecordBackend)]

theorem claim3_witness :
    (ParseFiles failRegistry (.cons (.file "a.js" false) .nil) "root").1 ≠
      .ok ⟨["./a.js"], []⟩ :=
  (claim3_backend_failure_aborts_run failRegistry
    (.cons (.file "a.js" false) .nil) "root" .js failingBackend
    "srcML unavailable" (List.mem_cons_self _ _) (fun _ => rfl)).2 _

/-- C4: after routing, `Parse()` is issued exactly once per registry entry
— the issued-call list has one call per backend, covering every registered
language, including backends with an empty queue — and on success the run
resolves with the accumulated `filenames` paired with the flattening of all
backends' returned lists. -/
theorem claim4_fanout_flatten (reg : List (Language × Backend)) (root : FSList)
    (bp : String) :
    ((routeFiles reg (getAllFiles bp root) bp).2.map Prod.fst = reg.map Prod.fst) ∧
    ((routeFiles reg (getAllFiles bp root) bp).2.map
        (fun lb => lb.2.Parse.1)).length = reg.length ∧
    (∀ rs, promiseAll ((routeFiles reg (getAllFiles bp root) bp).2.map
        (fun lb => lb.2.parseFn lb.2.queue)) = .ok rs →
      (ParseFiles reg root bp).1 =
        .ok ⟨supportedNames bp (getAllFiles bp root), rs.flatten⟩) := by
  have hsp := routeFiles_samePF bp (getAllFiles bp root) reg
  refine ⟨(forall2_samePF_keys hsp).symm, ?_, ?_⟩
  · rw [List.length_map]
    exact hsp.length_eq.symm
  · intro rs h
    rw [ParseFiles_fst_ok _ _ _ _ h, routeFiles_fst]

theorem claim4_witness :
    (ParseFiles sampleRegistry .nil "root").1 =
      .ok ⟨supportedNames "root" (getAllFiles "root" .nil),
        ([[], []] : List (List HashData)).flatten⟩ :=
  (claim4_fanout_flatten sampleRegistry .nil "root").2.2 [[], []] rfl

theorem clearedRegistry_eq {a b : List (Language × Backend)}
    (h : List.Forall₂ samePF a b) (hq : ∀ lb ∈ a, lb.2.queue = []) :
    b.map (fun lb => (lb.1, Backend.mk [] lb.2.parseFn)) = a := by
  induction h with
  | nil => rfl
  | @cons x y xs ys hr ht ih =>
    rw [List.map_cons, ih (fun lb hm => hq lb (List.mem_cons_of_mem _ hm))]
    have hx : x.2.queue = [] := hq x (List.mem_cons_self _ _)
    rcases x with ⟨lx, qx, px⟩
    rcases hr with ⟨h1, h2⟩
    simp only at h1 h2
    simp only at hx
    simp [← h1, ← h2, hx]

theorem ParseFiles_registry_restored (reg : List (Language × Backend))
    (root : FSList) (bp : String) (hq : ∀ lb ∈ reg, lb.2.queue = []) :
    (ParseFiles reg root bp).2 = reg := by
  rw [ParseFiles_snd]
  exact clearedRegistry_eq (routeFiles_samePF bp _ reg) hq

/-- C9: re-running `ParseFiles` over the same base path with unchanged
file content and the registry state left by the first run produces the
identical result (same `filenames`, same records, same settled outcome),
because each backend's completed `Parse()` cycle restores its queue. -/
theorem claim9_determinism (reg : List (Language × Backend)) (root : FSList)
    (bp : String) (hq : ∀ lb ∈ reg, lb.2.queue = []) :
    ParseFiles ((ParseFiles reg root bp).2) root bp = ParseFiles reg root bp := by
  rw [ParseFiles_registry_restored reg root bp hq]

theorem claim9_witness :
    ParseFiles ((ParseFiles sampleRegistry (.cons (.file "m.py" false) .nil) "d").2)
        (.cons (.file "m.py" false) .nil) "d" =
      ParseFiles sampleRegistry (.cons (.file "m.py" false) .nil) "d" :=
  claim9_determinism sampleRegistry (.cons (.file "m.py" false) .nil) "d"
    (by decide)

/-- C8: under the spec-modelled backend contract, a function strictly
below the configured minimum size (line count or character count) never
produces a record, a function at or above both thresholds produces exactly
one, and every backend of the registry is constructed with the same two
thresholds `MIN_METHOD_LINES` and `MIN_FUNCTION_CHARS`. -/
theorem claim8_min_size_filtering (minLines minChars : Nat)
    (extract : String → String → List RawFunction)
    (fileName bpath : String) (f : RawFunction)
    (hex : extract fileName bpath = [f]) :
    (f.lineCount < minLines ∨ f.charCount < minChars →
      specBackendParse minLines minChars extract [(fileName, bpath)] = []) ∧
    (minLines ≤ f.lineCount ∧ minChars ≤ f.charCount →
      specBackendParse minLines minChars extract [(fileName, bpath)] =
        [toHashData fileName f]) ∧
    (∀ exJs exPy exCpp exCs exJava,
      ∀ lb ∈ Parser.parsers exJs exPy exCpp exCs exJava,
        ∃ ex, lb.2 = mkSpecBackend MIN_METHOD_LINES MIN_FUNCTION_CHARS ex) := by
  refine ⟨?_, ?_, ?_⟩
  · intro h
    have hcond : (decide (minLines ≤ f.lineCount) &&
        decide (minChars ≤ f.charCount)) = false := by
      cases h with
      | inl h => simp [Nat.not_le.mpr h]
      | inr h => simp [Nat.not_le.mpr h]
    simp [specBackendParse, minSizeFilter, hex, List.filter, hcond]
  · rintro ⟨ha, hb⟩
    simp [specBackendParse, minSizeFilter, hex, List.filter, ha, hb]
  · intro e1 e2 e3 e4 e5 lb hm
    simp only [Parser.parsers, List.mem_cons, List.not_mem_nil, or_false] at hm
    rcases hm with h | h | h | h | h <;> subst h
    · exact ⟨e1, rfl⟩
    · exact ⟨e2, rfl⟩
    · exact ⟨e3, rfl⟩
    · exact ⟨e4, rfl⟩
    · exact ⟨e5, rfl⟩

/-- A sample extracted function: 3 lines, 10 characters. -/
def sampleFunction : RawFunction := ⟨"g", 2, 4, 10, "h"⟩

theorem claim8_witness :
    specBackendParse 5 0 (fun _ _ => [sampleFunction]) [("a.py", "r")] = [] ∧
    specBackendParse 2 5 (fun _ _ => [sampleFunction]) [("a.py", "r")] =
      [toHashData "a.py" sampleFunction] :=
  ⟨(claim8_min_size_filtering 5 0 (fun _ _ => [sampleFunction]) "a.py" "r"
      sampleFunction rfl).1 (Or.inl (by decide)),
   (claim8_min_size_filtering 2 5 (fun _ _ => [sampleFunction]) "a.py" "r"
      sampleFunction rfl).2.1 ⟨by decide, by decide⟩⟩


end SearchSECO
